import Mathlib

/-!
Shallow embedding of `rplace.cpp` (tylerkaraszewski/rplace).

The source file defines four entities:
* `Pixel` — an immutable value `{x, y, color, userID}`.
* `Update` — an immutable log record `{recordNumber, timestamp, pixel}`.
* `Snapshot` — the grid state after a prefix of the update log
  (`width`, `height`, a row-major `pixels` vector, and `recordNumber`,
  the count of log entries already applied).
* `Place` — the store: the rate-limiter map `mostRecentUpdatesPerUser`,
  the append-only `updates` log, a `workingSnapshot` and a shared
  `recentSnapshot`, with operations `update` and `getCurrentState`.

The embedding is sequential (one operation at a time), which matches the
source's locking discipline: `Place::update` runs entirely under the
exclusive lock, and both phases of `Place::getCurrentState` observe the
same `updates` list because only the lock-holder mutates it.

`uint64_t` values are modelled as `Nat`.  The single place where machine
arithmetic is observable is the cooldown comparison
`recentUdpateIt->second > currentTime - (5 * 1'000'000)` in
`Place::update`: `second` is `uint64_t` while `currentTime` is the signed
`system_clock` rep, so C++ converts the right-hand side to `uint64_t`
before comparing.  We model that conversion explicitly as
`(currentTime + 2^64 - cooldownMicros) % 2^64` (for `currentTime < 2^64`,
which is the representable range).
-/

structure Pixel where
  x : Nat
  y : Nat
  color : Nat
  userID : Nat
deriving DecidableEq

/-- `static constexpr uint64_t defaultColor = 0;` in the source. -/
def Pixel.defaultColor : Nat := 0

structure Update where
  recordNumber : Nat
  timestamp : Nat
  pixel : Pixel
deriving DecidableEq

structure Snapshot where
  width : Nat
  height : Nat
  pixels : List Pixel
  recordNumber : Nat
deriving DecidableEq

/-- The nested constructor loops of `Snapshot::Snapshot`: for `y` from `0`
to `height-1`, for `x` from `0` to `width-1`, emplace
`Pixel(x, y, 0, Pixel::defaultColor)`.  Row `h` is appended after the rows
below it, exactly as `emplace_back` does. -/
def freshRows (width : Nat) : Nat → List Pixel
  | 0 => []
  | h + 1 => freshRows width h ++ (List.range width).map (fun x => ⟨x, h, 0, Pixel.defaultColor⟩)

/-- `Snapshot::Snapshot(width, height)`: all-default pixels, `recordNumber = 0`. -/
def Snapshot.init (width height : Nat) : Snapshot :=
  ⟨width, height, freshRows width height, 0⟩

/-- One iteration of the loop body of `Snapshot::apply`:
`pixels[u.pixel.getY() * width + u.pixel.getX()] = u.pixel;`. -/
def writeStep (width : Nat) (pixels : List Pixel) (u : Update) : List Pixel :=
  pixels.set (u.pixel.y * width + u.pixel.x) u.pixel

/-- `Snapshot::apply`: `for (size_t i = recordNumber; i < updates.size(); i++)`
apply `updates[i]`, then `recordNumber = updates.size()`. -/
def Snapshot.apply (s : Snapshot) (updates : List Update) : Snapshot :=
  { s with
    pixels := (updates.drop s.recordNumber).foldl (writeStep s.width) s.pixels
    recordNumber := updates.length }

/-- `2^64`, the modulus of `uint64_t`. -/
def U64 : Nat := 2 ^ 64

/-- The cooldown constant in `Place::update`: `(/*60 * */5 * 1'000'000)`. -/
def cooldownMicros : Nat := 5 * 1000000

structure PlaceState where
  width : Nat
  height : Nat
  mostRecentUpdatesPerUser : Nat → Option Nat
  updates : List Update
  workingSnapshot : Snapshot
  recentSnapshot : Snapshot

/-- `Place::Place()`: `width = height = 1000`, empty map, empty log,
both snapshots freshly constructed. -/
def PlaceState.init : PlaceState :=
  ⟨1000, 1000, fun _ => none, [], Snapshot.init 1000 1000, Snapshot.init 1000 1000⟩

/-- `recentUdpateIt->second = currentTime;` / `mostRecentUpdatesPerUser.emplace(...)`:
both store `currentTime` under the user's key. -/
def setUserTime (s : PlaceState) (uid t : Nat) : PlaceState :=
  { s with
    mostRecentUpdatesPerUser := fun i => if i = uid then some t else s.mostRecentUpdatesPerUser i }

/-- `updates.emplace_back(updates.size(), currentTime, p);`. -/
def appendUpdate (s : PlaceState) (p : Pixel) (t : Nat) : PlaceState :=
  { s with updates := s.updates ++ [⟨s.updates.length, t, p⟩] }

/-- `Place::update(p)`, with the clock reading passed in as `currentTime`.
Control flow follows the source exactly: bounds check first (returning
`false` and touching nothing), then the rate-limiter lookup, then — if
admitted — the timestamp write and the log append. -/
def Place.update (s : PlaceState) (p : Pixel) (currentTime : Nat) : Bool × PlaceState :=
  if s.width ≤ p.x ∨ s.height ≤ p.y then
    (false, s)
  else
    match s.mostRecentUpdatesPerUser p.userID with
    | some last =>
      if (currentTime + U64 - cooldownMicros) % U64 < last then
        (false, s)
      else
        (true, appendUpdate (setUserTime s p.userID currentTime) p currentTime)
    | none =>
      (true, appendUpdate (setUserTime s p.userID currentTime) p currentTime)

/-- `Place::getCurrentState`, with the hard-coded republish constant `100`
abstracted as `republishThreshold` (the source compares
`workingSnapshot.recordNumber > recentSnapshot->recordNumber + 100`).
Returns the caller's snapshot copy together with the post-call store
state. -/
def Place.getCurrentStateT (republishThreshold : Nat) (s : PlaceState) : Snapshot × PlaceState :=
  let working := s.workingSnapshot.apply s.updates
  let recent :=
    if s.recentSnapshot.recordNumber + republishThreshold < working.recordNumber then
      working
    else
      s.recentSnapshot
  (recent.apply s.updates, { s with workingSnapshot := working, recentSnapshot := recent })

/-- `Place::getCurrentState` exactly as in the source (threshold `100`). -/
def Place.getCurrentState (s : PlaceState) : Snapshot × PlaceState :=
  Place.getCurrentStateT 100 s

/-- Modelled from the spec: the naive reader that performs a full copy of a
fresh grid plus a full catch-up against the whole log on every read
("full copy + full catch-up on every read").  Used as the reference
implementation for the tiering-transparency claim. -/
def naiveRead (s : PlaceState) : Snapshot :=
  (Snapshot.init s.width s.height).apply s.updates

/-- A sequence of `Place::update` calls, each given as a pixel and a clock
reading; the returned booleans are discarded, the state threads through. -/
def submitMany (s : PlaceState) : List (Pixel × Nat) → PlaceState
  | [] => s
  | r :: rs => submitMany (Place.update s r.fst r.snd).snd rs

/-- Does `u` target grid cell `(x, y)`? -/
def targetsCell (x y : Nat) (u : Update) : Bool :=
  u.pixel.x == x && u.pixel.y == y

/-- The last update in `L` (in list order) that targets `(x, y)`:
last-write-wins per coordinate. -/
def lastWrite (L : List Update) (x y : Nat) : Option Update :=
  (L.filter (targetsCell x y)).getLast?

/-- The log numbering invariant: the `i`-th record's `recordNumber` is `i`. -/
def WellNumbered (L : List Update) : Prop :=
  ∀ i < L.length, L[i]?.map Update.recordNumber = some i

/-- Every update in `L` has in-bounds pixel coordinates. -/
def InBounds (w h : Nat) (L : List Update) : Prop :=
  ∀ u ∈ L, u.pixel.x < w ∧ u.pixel.y < h

/-- `S` is a correct snapshot of the first `S.recordNumber` entries of `log`
for a `w × h` grid: it is exactly what replaying that prefix over a fresh
grid produces. -/
def SnapOK (log : List Update) (w h : Nat) (S : Snapshot) : Prop :=
  S.width = w ∧ S.height = h ∧ S.recordNumber ≤ log.length ∧
  S.pixels = (log.take S.recordNumber).foldl (writeStep w) (freshRows w h)

/-- The store global invariant. -/
def StoreInv (s : PlaceState) : Prop :=
  SnapOK s.updates s.width s.height s.workingSnapshot ∧
  SnapOK s.updates s.width s.height s.recentSnapshot ∧
  InBounds s.width s.height s.updates ∧
  WellNumbered s.updates

/-- States reachable from `Place::Place()` by any interleaving of
`Place::update` and `Place::getCurrentState` calls (the latter with
republish threshold `thr`). -/
inductive Reachable (thr : Nat) : PlaceState → Prop
  | init : Reachable thr PlaceState.init
  | write : ∀ s p t, Reachable thr s → Reachable thr (Place.update s p t).snd
  | read : ∀ s, Reachable thr s → Reachable thr (Place.getCurrentStateT thr s).snd

/-- A 3×3 request list: one accepted write per distinct user (users `0..99`),
all at clock reading `10^9`, pixel `(1,1)`.  Every write is in bounds and no
user repeats, so all 100 are accepted. -/
def c2Reqs : List (Pixel × Nat) :=
  (List.range 100).map (fun i => (⟨1, 1, 2, i⟩, 1000000000))

/-- The store after 100 accepted writes from `Place::Place()` with no
intervening read: the log has length 100 and the published snapshot still
has `recordNumber = 0`. -/
def c2S : PlaceState := submitMany PlaceState.init c2Reqs

/-- Store after a single accepted write by user 7 at clock reading `0`. -/
def c5S : PlaceState := (Place.update PlaceState.init ⟨1, 1, 2, 7⟩ 0).snd

/-- Store after a single accepted write by user 7 at clock reading `10^9`. -/
def c9S : PlaceState := (Place.update PlaceState.init ⟨1, 1, 2, 7⟩ 1000000000).snd

/-- An empty 3×3 store (the end-to-end scenario of the spec). -/
def c6S0 : PlaceState :=
  ⟨3, 3, fun _ => none, [], Snapshot.init 3 3, Snapshot.init 3 3⟩

/-- `t0` of the end-to-end scenario, in microseconds. -/
def c6t0 : Nat := 1000000000

/-- Scenario step 1: `submitWrite(1,1,5,writer=7,t0)`. -/
def c6w1 : Bool × PlaceState := Place.update c6S0 ⟨1, 1, 5, 7⟩ c6t0

/-- Scenario step 2: `submitWrite(1,1,9,writer=7,t0+1s)` (`1s = 10^6 μs`). -/
def c6w2 : Bool × PlaceState := Place.update c6w1.snd ⟨1, 1, 9, 7⟩ (c6t0 + 1000000)

/-- Scenario step 3: `readSnapshot()` at `t0+1s`. -/
def c6r1 : Snapshot × PlaceState := Place.getCurrentState c6w2.snd

/-- Scenario step 4: `submitWrite(1,1,9,writer=7,t0+301s)`. -/
def c6w3 : Bool × PlaceState := Place.update c6r1.snd ⟨1, 1, 9, 7⟩ (c6t0 + 301000000)

/-- Scenario step 5: the subsequent `readSnapshot()`. -/
def c6r2 : Snapshot × PlaceState := Place.getCurrentState c6w3.snd

/-- A tiny snapshot/log pair used to witness the `apply` characterization:
a fresh 3×3 snapshot and a one-entry log writing pixel `(1,1)`. -/
def c4S : Snapshot := Snapshot.init 3 3

/-- The one-entry log for the `apply` witness. -/
def c4L : List Update := [⟨0, 5, ⟨1, 1, 7, 9⟩⟩]

theorem getLast?_cons_eq {α : Type} (a : α) (l : List α) :
    (a :: l).getLast? = some (l.getLast?.getD a) := by
  induction l generalizing a with
  | nil => simp
  | cons b l ih =>
    rw [List.getLast?_cons_cons, ih b]
    rcases l.getLast? with _ | c <;> simp

theorem rowMajor_inj {w x x' y y' : Nat} (hx : x < w) (hx' : x' < w)
    (h : y * w + x = y' * w + x') : x = x' ∧ y = y' := by
  have hw : 0 < w := lt_of_le_of_lt (Nat.zero_le x) hx
  have h' : x + y * w = x' + y' * w := by omega
  have hmod : x = x' := by
    have := congrArg (fun n => n % w) h'
    simpa [Nat.add_mul_mod_self_right, Nat.mod_eq_of_lt hx, Nat.mod_eq_of_lt hx'] using this
  have hdiv : y = y' := by
    have := congrArg (fun n => n / w) h'
    simpa [Nat.add_mul_div_right _ _ hw, Nat.div_eq_of_lt hx, Nat.div_eq_of_lt hx'] using this
  exact ⟨hmod, hdiv⟩

theorem freshRows_length (w : Nat) : ∀ h : Nat, (freshRows w h).length = h * w := by
  intro h
  induction h with
  | zero => simp [freshRows]
  | succ n ih => simp [freshRows, ih, Nat.succ_mul]

theorem freshRows_getElem? (w : Nat) :
    ∀ h y x : Nat, x < w → y < h →
      (freshRows w h)[y * w + x]? = some ⟨x, y, 0, Pixel.defaultColor⟩ := by
  intro h
  induction h with
  | zero => intro y x _ hy; omega
  | succ n ih =>
    intro y x hx hy
    rw [freshRows]
    by_cases hyn : y < n
    · have hidx : y * w + x < (freshRows w n).length := by
        rw [freshRows_length]
        have h1 : y * w + x < (y + 1) * w := by
          calc y * w + x < y * w + w := by omega
          _ = (y + 1) * w := by ring
        exact lt_of_lt_of_le h1 (Nat.mul_le_mul_right w hyn)
      rw [List.getElem?_append_left hidx]
      exact ih y x hx hyn
    · have hyn' : y = n := by omega
      subst hyn'
      have hge : (freshRows w y).length ≤ y * w + x := by
        rw [freshRows_length]; omega
      rw [List.getElem?_append_right hge, freshRows_length]
      have hsub : y * w + x - y * w = x := by omega
      rw [hsub, List.getElem?_map, List.getElem?_range hx]
      rfl

theorem writeStep_length (w : Nat) (px : List Pixel) (u : Update) :
    (writeStep w px u).length = px.length := by
  simp [writeStep]

theorem foldl_writeStep_length (w : Nat) :
    ∀ (L : List Update) (px : List Pixel), (L.foldl (writeStep w) px).length = px.length := by
  intro L
  induction L with
  | nil => intro px; rfl
  | cons u L ih => intro px; rw [List.foldl_cons, ih, writeStep_length]

theorem foldl_writeStep_getElem? {w x y : Nat} (hx : x < w) :
    ∀ (L : List Update) (px : List Pixel), (∀ u ∈ L, u.pixel.x < w) → y * w + x < px.length →
      (L.foldl (writeStep w) px)[y * w + x]? =
        (match lastWrite L x y with
         | some u => some u.pixel
         | none => px[y * w + x]?) := by
  intro L
  induction L with
  | nil => intro px _ _; simp [lastWrite]
  | cons u L ih =>
    intro px hb hidx
    have hb' : ∀ v ∈ L, v.pixel.x < w := fun v hv => hb v (List.mem_cons_of_mem u hv)
    have hidx' : y * w + x < (writeStep w px u).length := by rw [writeStep_length]; exact hidx
    rw [List.foldl_cons, ih (writeStep w px u) hb' hidx']
    unfold lastWrite
    rw [List.filter_cons]
    by_cases ht : targetsCell x y u = true
    · obtain ⟨hux, huy⟩ : u.pixel.x = x ∧ u.pixel.y = y := by
        simpa [targetsCell] using ht
      have hset : (writeStep w px u)[y * w + x]? = some u.pixel := by
        rw [writeStep, hux, huy]
        exact List.getElem?_set_self hidx
      rw [if_pos ht, getLast?_cons_eq]
      cases hl : (L.filter (targetsCell x y)).getLast? with
      | none => simp [hl, hset]
      | some v => simp [hl]
    · have hne : u.pixel.y * w + u.pixel.x ≠ y * w + x := by
        intro heq
        have hxw : u.pixel.x < w := hb u (List.mem_cons_self u L)
        have := rowMajor_inj hxw hx heq
        exact ht (by simp [targetsCell, this.1, this.2])
      have hset : (writeStep w px u)[y * w + x]? = px[y * w + x]? := by
        rw [writeStep]
        exact List.getElem?_set_ne hne
      rw [if_neg ht]
      cases hl : (L.filter (targetsCell x y)).getLast? with
      | none => simp [hl, hset]
      | some v => simp [hl]

theorem wn_get {L : List Update} (hN : WellNumbered L) {i : Nat} {u : Update}
    (h : L[i]? = some u) : u.recordNumber = i := by
  have hi : i < L.length := (List.getElem?_eq_some.mp h).1
  have := hN i hi
  rw [h] at this
  simpa using this

theorem snapOK_init (log : List Update) (w h : Nat) : SnapOK log w h (Snapshot.init w h) := by
  refine ⟨rfl, rfl, Nat.zero_le _, ?_⟩
  simp [Snapshot.init]

theorem apply_of_snapOK {log : List Update} {w h : Nat} {S : Snapshot} (hS : SnapOK log w h S) :
    S.apply log = ⟨w, h, log.foldl (writeStep w) (freshRows w h), log.length⟩ := by
  obtain ⟨hw, hh, hrn, hpx⟩ := hS
  unfold Snapshot.apply
  rcases S with ⟨sw, sh, spx, srn⟩
  simp only at hw hh hrn hpx
  subst hw hh hpx
  simp only [Snapshot.mk.injEq, and_true, true_and]
  rw [← List.foldl_append, List.take_append_drop]

theorem snapOK_after_apply {log : List Update} {w h : Nat} {S : Snapshot}
    (hS : SnapOK log w h S) : SnapOK log w h (S.apply log) := by
  rw [apply_of_snapOK hS]
  refine ⟨rfl, rfl, le_refl _, ?_⟩
  rw [List.take_length]

theorem naiveRead_eq (s : PlaceState) :
    naiveRead s =
      ⟨s.width, s.height, s.updates.foldl (writeStep s.width) (freshRows s.width s.height),
        s.updates.length⟩ :=
  apply_of_snapOK (snapOK_init s.updates s.width s.height)

theorem snapOK_append {log : List Update} {w h : Nat} {S : Snapshot}
    (hS : SnapOK log w h S) (u : Update) : SnapOK (log ++ [u]) w h S := by
  obtain ⟨hw, hh, hrn, hpx⟩ := hS
  refine ⟨hw, hh, ?_, ?_⟩
  · simp only [List.length_append, List.length_singleton]
    omega
  · rw [List.take_append_of_le_length hrn]
    exact hpx

theorem update_snd_cases (s : PlaceState) (p : Pixel) (t : Nat) :
    (Place.update s p t).snd = s ∨
      ((Place.update s p t).fst = true ∧ p.x < s.width ∧ p.y < s.height ∧
        (Place.update s p t).snd = appendUpdate (setUserTime s p.userID t) p t) := by
  unfold Place.update
  split
  next => left; rfl
  next hb =>
    split
    next last =>
      split
      next => left; rfl
      next => right; refine ⟨rfl, ?_, ?_, rfl⟩ <;> omega
    next => right; refine ⟨rfl, ?_, ?_, rfl⟩ <;> omega

theorem appendUpdate_setUserTime_fields (s : PlaceState) (p : Pixel) (t : Nat) :
    (appendUpdate (setUserTime s p.userID t) p t).width = s.width ∧
    (appendUpdate (setUserTime s p.userID t) p t).height = s.height ∧
    (appendUpdate (setUserTime s p.userID t) p t).updates
      = s.updates ++ [⟨s.updates.length, t, p⟩] ∧
    (appendUpdate (setUserTime s p.userID t) p t).workingSnapshot = s.workingSnapshot ∧
    (appendUpdate (setUserTime s p.userID t) p t).recentSnapshot = s.recentSnapshot := by
  simp [appendUpdate, setUserTime]

theorem wellNumbered_append {L : List Update} (hN : WellNumbered L) {u : Update}
    (hu : u.recordNumber = L.length) : WellNumbered (L ++ [u]) := by
  intro i hi
  rw [List.length_append, List.length_singleton] at hi
  by_cases hil : i < L.length
  · rw [List.getElem?_append_left hil]
    exact hN i hil
  · have hieq : i = L.length := by omega
    subst hieq
    rw [List.getElem?_append_right (le_refl _), Nat.sub_self, List.getElem?_cons_zero]
    simp [hu]

theorem storeInv_update (s : PlaceState) (p : Pixel) (t : Nat) (hI : StoreInv s) :
    StoreInv (Place.update s p t).snd := by
  rcases update_snd_cases s p t with hcase | ⟨_, hx, hy, hcase⟩
  · rw [hcase]; exact hI
  · rw [hcase]
    obtain ⟨hW, hR, hB, hN⟩ := hI
    obtain ⟨hw, hh, hu, hws, hrs⟩ := appendUpdate_setUserTime_fields s p t
    rw [StoreInv, hw, hh, hu, hws, hrs]
    refine ⟨snapOK_append hW _, snapOK_append hR _, ?_, ?_⟩
    · intro v hv
      rcases List.mem_append.mp hv with hv' | hv'
      · exact hB v hv'
      · have : v = ⟨s.updates.length, t, p⟩ := by simpa using hv'
        subst this
        exact ⟨hx, hy⟩
    · exact wellNumbered_append hN rfl

theorem storeInv_read (thr : Nat) (s : PlaceState) (hI : StoreInv s) :
    StoreInv (Place.getCurrentStateT thr s).snd := by
  obtain ⟨hW, hR, hB, hN⟩ := hI
  have hW' : SnapOK s.updates s.width s.height (s.workingSnapshot.apply s.updates) :=
    snapOK_after_apply hW
  unfold Place.getCurrentStateT
  refine ⟨hW', ?_, hB, hN⟩
  dsimp only
  split
  · exact hW'
  · exact hR

theorem reachable_storeInv {thr : Nat} {s : PlaceState} (h : Reachable thr s) : StoreInv s := by
  induction h with
  | init =>
    exact ⟨snapOK_init _ _ _, snapOK_init _ _ _, fun u hu => by simp [PlaceState.init] at hu,
      fun i hi => by simp [PlaceState.init] at hi⟩
  | write s p t _ ih => exact storeInv_update s p t ih
  | read s _ ih => exact storeInv_read thr s ih

theorem wellNumbered_filter_drop {L : List Update} (hN : WellNumbered L) (n : Nat) :
    L.filter (fun u => decide (n ≤ u.recordNumber)) = L.drop n := by
  conv_lhs => rw [← List.take_append_drop n L]
  rw [List.filter_append]
  have h1 : (L.take n).filter (fun u => decide (n ≤ u.recordNumber)) = [] := by
    rw [List.filter_eq_nil_iff]
    intro u hu
    obtain ⟨i, hget⟩ := List.mem_iff_getElem?.mp hu
    have hi : i < (L.take n).length := (List.getElem?_eq_some.mp hget).1
    rw [List.length_take] at hi
    have hin : i < n := lt_of_lt_of_le hi (min_le_left n L.length)
    rw [List.getElem?_take_of_lt hin] at hget
    have := wn_get hN hget
    simp only [decide_eq_true_eq]
    omega
  have h2 : (L.drop n).filter (fun u => decide (n ≤ u.recordNumber)) = L.drop n := by
    rw [List.filter_eq_self]
    intro u hu
    obtain ⟨j, hget⟩ := List.mem_iff_getElem?.mp hu
    rw [List.getElem?_drop] at hget
    have := wn_get hN hget
    simp only [decide_eq_true_eq]
    omega
  rw [h1, h2, List.nil_append]

/-- C3: for any snapshot `S` and log `L`, a second `apply` of the same log
immediately after a first one is a no-op: the set of updates it would apply
is empty, and the snapshot (every cell and the `recordNumber` field) is
left exactly as the first call produced it. -/
theorem apply_apply_eq_apply (S : Snapshot) (L : List Update) :
    (L.drop ((S.apply L).recordNumber)).length = 0 ∧ (S.apply L).apply L = S.apply L := by
  constructor
  · simp [Snapshot.apply]
  · unfold Snapshot.apply
    simp

/-- C4: `Snapshot::apply` sets `recordNumber` to the log length; the updates
it applies (the tail of the log from position `recordNumber`) are, for a
well-numbered log, exactly those records with
`recordNumber ≤ sequenceNumber < log length`; and every in-range cell
`(x, y)` ends up holding the pixel of the last update in that tail that
targets it — in increasing sequence order — while cells targeted by no such
update are untouched. -/
theorem apply_characterization (S : Snapshot) (L : List Update)
    (hwn : WellNumbered L) (hrn : S.recordNumber ≤ L.length)
    (hlen : S.pixels.length = S.height * S.width)
    (hb : InBounds S.width S.height L)
    (x y : Nat) (hx : x < S.width) (hy : y < S.height) :
    (S.apply L).recordNumber = L.length ∧
    L.filter (fun u => decide (S.recordNumber ≤ u.recordNumber)) = L.drop S.recordNumber ∧
    (S.apply L).pixels[y * S.width + x]? =
      (match lastWrite (L.drop S.recordNumber) x y with
       | some u => some u.pixel
       | none => S.pixels[y * S.width + x]?) := by
  refine ⟨rfl, wellNumbered_filter_drop hwn S.recordNumber, ?_⟩
  have hidx : y * S.width + x < S.pixels.length := by
    rw [hlen]
    have h1 : y * S.width + x < (y + 1) * S.width := by
      have : (y + 1) * S.width = y * S.width + S.width := by ring
      omega
    exact lt_of_lt_of_le h1 (Nat.mul_le_mul_right _ hy)
  have hb' : ∀ u ∈ L.drop S.recordNumber, u.pixel.x < S.width :=
    fun u hu => (hb u (List.mem_of_mem_drop hu)).1
  exact foldl_writeStep_getElem? hx (L.drop S.recordNumber) S.pixels hb' hidx

/-- Witness for `apply_characterization` at a fresh 3×3 snapshot and a
one-entry log writing cell `(1,1)`. -/
theorem apply_characterization_witness :
    WellNumbered c4L ∧
    ((c4S.apply c4L).recordNumber = c4L.length ∧
     c4L.filter (fun u => decide (c4S.recordNumber ≤ u.recordNumber)) = c4L.drop c4S.recordNumber ∧
     (c4S.apply c4L).pixels[1 * c4S.width + 1]? =
       (match lastWrite (c4L.drop c4S.recordNumber) 1 1 with
        | some u => some u.pixel
        | none => c4S.pixels[1 * c4S.width + 1]?)) := by
  have hwn : WellNumbered c4L := by unfold WellNumbered; decide
  have hbnd : InBounds c4S.width c4S.height c4L := by unfold InBounds; decide
  refine ⟨hwn, ?_⟩
  exact apply_characterization c4S c4L hwn (by decide) (by decide) hbnd
    1 1 (by decide) (by decide)

/-- C7: an out-of-bounds write attempt returns `false` and leaves the store
— the log and the rate-limiter map included — exactly as it was. -/
theorem bounds_reject_no_change (s : PlaceState) (p : Pixel) (t : Nat)
    (h : s.width ≤ p.x ∨ s.height ≤ p.y) :
    Place.update s p t = (false, s) := by
  unfold Place.update
  rw [if_pos h]

/-- Witness for `bounds_reject_no_change`: `x = 1000` on the default
`1000 × 1000` store. -/
theorem bounds_reject_no_change_witness :
    (PlaceState.init.width ≤ (1000 : Nat) ∨ PlaceState.init.height ≤ (0 : Nat)) ∧
    Place.update PlaceState.init ⟨1000, 0, 0, 8⟩ 5 = (false, PlaceState.init) := by
  refine ⟨Or.inl (by decide), ?_⟩
  exact bounds_reject_no_change PlaceState.init ⟨1000, 0, 0, 8⟩ 5 (Or.inl (by decide))

set_option maxRecDepth 40000 in
/-- C2 counterexample: a reachable store whose log holds exactly 100
accepted writes and whose published snapshot is still at position 0.
The caught-up working snapshot is then 100 ahead of the published one —
equal to the claimed threshold of 100 — yet `getCurrentState` does not
republish: the published snapshot stays at `recordNumber = 0`. -/
theorem republish_at_threshold_gap_not_triggered :
    (Place.getCurrentState c2S).snd.workingSnapshot.recordNumber
        - (Place.getCurrentState c2S).snd.recentSnapshot.recordNumber = 100 ∧
    (Place.getCurrentState c2S).snd.recentSnapshot.recordNumber = 0 := by
  decide

/-- C2 amended: `getCurrentState` first catches the working snapshot fully
up (its `recordNumber` becomes the log length), then replaces the published
snapshot by a copy of the caught-up working snapshot exactly when the
caught-up position exceeds the published position by strictly more than
100 (the hard-coded threshold), i.e. when the gap is at least 101;
otherwise the published snapshot is left untouched. -/
theorem republish_condition_strict (s : PlaceState) :
    (Place.getCurrentState s).snd.recentSnapshot =
      (if s.recentSnapshot.recordNumber + 100 < s.updates.length
       then s.workingSnapshot.apply s.updates
       else s.recentSnapshot) ∧
    (s.workingSnapshot.apply s.updates).recordNumber = s.updates.length ∧
    (Place.getCurrentState s).snd.workingSnapshot = s.workingSnapshot.apply s.updates := by
  unfold Place.getCurrentState Place.getCurrentStateT
  exact ⟨rfl, rfl, rfl⟩

theorem update_eq_of_none (s : PlaceState) (p : Pixel) (t : Nat)
    (hb : ¬(s.width ≤ p.x ∨ s.height ≤ p.y))
    (hm : s.mostRecentUpdatesPerUser p.userID = none) :
    Place.update s p t = (true, appendUpdate (setUserTime s p.userID t) p t) := by
  unfold Place.update
  rw [if_neg hb, hm]

theorem update_eq_of_entry (s : PlaceState) (p : Pixel) (t last : Nat)
    (hb : ¬(s.width ≤ p.x ∨ s.height ≤ p.y))
    (hm : s.mostRecentUpdatesPerUser p.userID = some last) :
    Place.update s p t =
      (if (t + U64 - cooldownMicros) % U64 < last then (false, s)
       else (true, appendUpdate (setUserTime s p.userID t) p t)) := by
  unfold Place.update
  rw [if_neg hb, hm]

/-- C9 amended: every `Place::update` call falls into exactly one of three
mutually exclusive cases — bounds rejection, cooldown rejection, or
acceptance — and each is all-or-nothing: both rejections return `(false, s)`
with the store untouched, and acceptance returns `true` having appended
exactly one update and refreshed the writer's timestamp.  The returned
value itself, however, is only a `Bool`: it does not carry the sequence
number, and the two rejection cases are not distinguishable from it. -/
theorem update_trichotomy (s : PlaceState) (p : Pixel) (t : Nat) :
    ((s.width ≤ p.x ∨ s.height ≤ p.y) ∧ Place.update s p t = (false, s)) ∨
    ((p.x < s.width ∧ p.y < s.height) ∧
      (∃ last, s.mostRecentUpdatesPerUser p.userID = some last ∧
        (t + U64 - cooldownMicros) % U64 < last) ∧
      Place.update s p t = (false, s)) ∨
    ((p.x < s.width ∧ p.y < s.height) ∧
      (∀ last, s.mostRecentUpdatesPerUser p.userID = some last →
        ¬ (t + U64 - cooldownMicros) % U64 < last) ∧
      Place.update s p t = (true, appendUpdate (setUserTime s p.userID t) p t)) := by
  unfold Place.update
  split
  next hb => exact Or.inl ⟨hb, rfl⟩
  next hb =>
    split
    next last heq =>
      split
      next hc => exact Or.inr (Or.inl ⟨⟨by omega, by omega⟩, ⟨last, heq, hc⟩, rfl⟩)
      next hc =>
        refine Or.inr (Or.inr ⟨⟨by omega, by omega⟩, ?_, rfl⟩)
        intro l hl
        rw [heq, Option.some.injEq] at hl
        rw [← hl]
        exact hc
    next heq =>
      refine Or.inr (Or.inr ⟨⟨by omega, by omega⟩, ?_, rfl⟩)
      intro l hl
      rw [heq] at hl
      exact Option.noConfusion hl

/-- C9 counterexample: on a store where writer 7 last wrote at time `10^9`,
a bounds-rejected attempt (x = 1000) and a cooldown-rejected attempt
(writer 7 again, 1 μs later) return the identical value `false`: the
`bool` result of `Place::update` cannot distinguish the two rejection
kinds, and carries no sequence number on success. -/
theorem rejections_indistinguishable :
    (Place.update c9S ⟨1000, 0, 0, 8⟩ 1000000001).fst
      = (Place.update c9S ⟨1, 1, 3, 7⟩ 1000000001).fst ∧
    (Place.update c9S ⟨1000, 0, 0, 8⟩ 1000000001).fst = false ∧
    c9S.width ≤ 1000 ∧
    (1 : Nat) < c9S.width ∧ (1 : Nat) < c9S.height ∧
    c9S.mostRecentUpdatesPerUser 7 = some 1000000000 := by
  decide

/-- C5 amended: for an in-bounds pixel and any clock reading `now` with
`cooldownMicros ≤ now < 2^64` (in particular every realistic clock value),
admission works exactly as claimed: a writer with no entry is admitted and
an entry `lastAcceptedTimestamp = now` is created; a writer with an entry
is rejected — with the whole store left unchanged — exactly when
`now - lastAcceptedTimestamp < cooldownMicros`; otherwise the writer is
admitted, its entry is set to `now`, and exactly one update is appended.
(For `now < cooldownMicros` the claim fails: the comparison is performed
in unsigned 64-bit arithmetic and wraps — see the counterexample.) -/
theorem update_admission_characterization (s : PlaceState) (p : Pixel) (now : Nat)
    (hx : p.x < s.width) (hy : p.y < s.height)
    (hcd : cooldownMicros ≤ now) (hU : now < U64) :
    ((Place.update s p now).fst = false ↔
      ∃ last, s.mostRecentUpdatesPerUser p.userID = some last ∧
        now - last < cooldownMicros) ∧
    ((Place.update s p now).fst = false → (Place.update s p now).snd = s) ∧
    ((Place.update s p now).fst = true →
      (Place.update s p now).snd.mostRecentUpdatesPerUser p.userID = some now ∧
      (Place.update s p now).snd.updates = s.updates ++ [⟨s.updates.length, now, p⟩]) ∧
    (s.mostRecentUpdatesPerUser p.userID = none → (Place.update s p now).fst = true) := by
  have hb : ¬(s.width ≤ p.x ∨ s.height ≤ p.y) := by omega
  have hU64 : U64 = 18446744073709551616 := by norm_num [U64]
  have hcool : cooldownMicros = 5000000 := by norm_num [cooldownMicros]
  have hpos : 0 < cooldownMicros := by omega
  have hmod : (now + U64 - cooldownMicros) % U64 = now - cooldownMicros := by
    rw [hU64, hcool]
    rw [hU64] at hU
    rw [hcool] at hcd
    omega
  cases hm : s.mostRecentUpdatesPerUser p.userID with
  | none =>
    rw [update_eq_of_none s p now hb hm]
    refine ⟨?_, ?_, ?_, ?_⟩
    · simp
    · simp
    · intro _
      constructor
      · simp [appendUpdate, setUserTime]
      · simp [appendUpdate, setUserTime]
    · intro _
      rfl
  | some last =>
    rw [update_eq_of_entry s p now last hb hm, hmod]
    by_cases hcl : now - cooldownMicros < last
    · rw [if_pos hcl]
      refine ⟨?_, ?_, ?_, ?_⟩
      · simp only [true_iff]
        exact ⟨last, rfl, by omega⟩
      · intro _
        rfl
      · intro habs
        exact absurd habs (by simp)
      · intro habs
        exact Option.noConfusion habs
    · rw [if_neg hcl]
      refine ⟨?_, ?_, ?_, ?_⟩
      · constructor
        · intro h
          exact absurd h (by simp)
        · rintro ⟨l, hl, hlt⟩
          rw [Option.some.injEq] at hl
          exact absurd hlt (by omega)
      · intro habs
        exact absurd habs (by simp)
      · intro _
        constructor
        · simp [appendUpdate, setUserTime]
        · simp [appendUpdate, setUserTime]
      · intro _
        rfl

/-- Witness for `update_admission_characterization`: a first-time writer on
the default store at clock reading `5000000`. -/
theorem update_admission_characterization_witness :
    ((⟨1, 1, 3, 7⟩ : Pixel).x < PlaceState.init.width ∧
     (⟨1, 1, 3, 7⟩ : Pixel).y < PlaceState.init.height ∧
     cooldownMicros ≤ 5000000 ∧ (5000000 : Nat) < U64) ∧
    (((Place.update PlaceState.init ⟨1, 1, 3, 7⟩ 5000000).fst = false ↔
       ∃ last, PlaceState.init.mostRecentUpdatesPerUser (⟨1, 1, 3, 7⟩ : Pixel).userID = some last ∧
         5000000 - last < cooldownMicros) ∧
     ((Place.update PlaceState.init ⟨1, 1, 3, 7⟩ 5000000).fst = false →
       (Place.update PlaceState.init ⟨1, 1, 3, 7⟩ 5000000).snd = PlaceState.init) ∧
     ((Place.update PlaceState.init ⟨1, 1, 3, 7⟩ 5000000).fst = true →
       (Place.update PlaceState.init ⟨1, 1, 3, 7⟩ 5000000).snd.mostRecentUpdatesPerUser
           (⟨1, 1, 3, 7⟩ : Pixel).userID = some 5000000 ∧
       (Place.update PlaceState.init ⟨1, 1, 3, 7⟩ 5000000).snd.updates =
         PlaceState.init.updates ++
           [⟨PlaceState.init.updates.length, 5000000, ⟨1, 1, 3, 7⟩⟩]) ∧
     (PlaceState.init.mostRecentUpdatesPerUser (⟨1, 1, 3, 7⟩ : Pixel).userID = none →
       (Place.update PlaceState.init ⟨1, 1, 3, 7⟩ 5000000).fst = true)) := by
  refine ⟨⟨by decide, by decide, by decide, by decide⟩, ?_⟩
  exact update_admission_characterization PlaceState.init ⟨1, 1, 3, 7⟩ 5000000
    (by decide) (by decide) (by decide) (by decide)

/-- C5 counterexample: writer 7 has an entry with `lastAcceptedTimestamp = 0`
and retries at clock reading `1`.  The elapsed time `1 - 0 = 1` is far below
the cooldown, so the claim demands rejection with no log growth; but the
source compares `uint64_t` against the wrapped-around value
`1 - 5000000` (unsigned), so the attempt is admitted and the log grows. -/
theorem cooldown_claim_fails_at_small_now :
    c5S.mostRecentUpdatesPerUser 7 = some 0 ∧
    (1 : Nat) - 0 < cooldownMicros ∧
    (Place.update c5S ⟨1, 1, 3, 7⟩ 1).fst = true ∧
    (Place.update c5S ⟨1, 1, 3, 7⟩ 1).snd.updates.length = c5S.updates.length + 1 := by
  decide

/-- C6: the end-to-end scenario on an empty 3×3 store with default value 0.
`submitWrite(1,1,5,writer=7,t0)` is accepted and logged with sequence
number 0; `submitWrite(1,1,9,writer=7,t0+1s)` is rejected by the cooldown;
`readSnapshot()` at `t0+1s` shows cell `(1,1) = 5` (written by writer 7),
every other cell still 0, and `sequenceNumber = 1`;
`submitWrite(1,1,9,writer=7,t0+301s)` is accepted with sequence number 1;
the subsequent `readSnapshot()` shows cell `(1,1) = 9` and
`sequenceNumber = 2`.  Timestamps are in microseconds. -/
theorem end_to_end_scenario :
    c6w1.fst = true ∧
    c6w1.snd.updates.map Update.recordNumber = [0] ∧
    c6w2.fst = false ∧
    c6w2.snd.updates.map Update.recordNumber = [0] ∧
    c6r1.fst.recordNumber = 1 ∧
    c6r1.fst.pixels[1 * 3 + 1]? = some ⟨1, 1, 5, 7⟩ ∧
    (∀ i < 9, i ≠ 4 → c6r1.fst.pixels[i]?.map Pixel.color = some 0) ∧
    c6w3.fst = true ∧
    c6w3.snd.updates.map Update.recordNumber = [0, 1] ∧
    c6r2.fst.recordNumber = 2 ∧
    c6r2.fst.pixels[1 * 3 + 1]? = some ⟨1, 1, 9, 7⟩ := by
  decide

/-- C8: along any sequence of `Place::update` calls (accepted or rejected),
the log stays well numbered — the `i`-th record's `recordNumber` is `i`, so
the accepted writes receive the contiguous sequence numbers `0, 1, 2, …`
with no gaps — and the log only grows: the previous log is always a prefix
of the new one. -/
theorem submit_sequence_wellNumbered (s : PlaceState) (reqs : List (Pixel × Nat))
    (hN : WellNumbered s.updates) :
    WellNumbered (submitMany s reqs).updates ∧
    (submitMany s reqs).updates.take s.updates.length = s.updates ∧
    s.updates.length ≤ (submitMany s reqs).updates.length := by
  induction reqs generalizing s with
  | nil => exact ⟨hN, List.take_length s.updates, le_refl _⟩
  | cons r rs ih =>
    rw [submitMany]
    rcases update_snd_cases s r.fst r.snd with hc | ⟨_, _, _, hc⟩
    · rw [hc]
      exact ih s hN
    · rw [hc]
      have hu : (appendUpdate (setUserTime s r.fst.userID r.snd) r.fst r.snd).updates
          = s.updates ++ [⟨s.updates.length, r.snd, r.fst⟩] :=
        (appendUpdate_setUserTime_fields s r.fst r.snd).2.2.1
      have hN' : WellNumbered (appendUpdate (setUserTime s r.fst.userID r.snd) r.fst r.snd).updates := by
        rw [hu]
        exact wellNumbered_append hN rfl
      obtain ⟨h1, h2, h3⟩ := ih _ hN'
      have hlen' : (appendUpdate (setUserTime s r.fst.userID r.snd) r.fst r.snd).updates.length
          = s.updates.length + 1 := by
        rw [hu]
        simp
      refine ⟨h1, ?_, by omega⟩
      have htk := congrArg (List.take s.updates.length) h2
      rw [List.take_take, Nat.min_eq_left (by omega)] at htk
      rw [htk, hu, List.take_append_of_le_length (le_refl _), List.take_length]

/-- Witness for `submit_sequence_wellNumbered`: one write on the default
store. -/
theorem submit_sequence_wellNumbered_witness :
    WellNumbered PlaceState.init.updates ∧
    (WellNumbered (submitMany PlaceState.init [(⟨1, 1, 5, 7⟩, 0)]).updates ∧
     (submitMany PlaceState.init [(⟨1, 1, 5, 7⟩, 0)]).updates.take
         PlaceState.init.updates.length = PlaceState.init.updates ∧
     PlaceState.init.updates.length ≤
       (submitMany PlaceState.init [(⟨1, 1, 5, 7⟩, 0)]).updates.length) := by
  have h : WellNumbered PlaceState.init.updates := by
    unfold WellNumbered
    decide
  exact ⟨h, submit_sequence_wellNumbered PlaceState.init [(⟨1, 1, 5, 7⟩, 0)] h⟩

/-- C10: in every reachable store state, every logged update has in-bounds
coordinates (guaranteed by the bounds check in `Place::update` before the
append), and therefore its row-major index `y * width + x` is strictly
below `width * height` — and in particular below the pixel-array length of
both the working and the published snapshot, so the cell-array access in
`Snapshot::apply` is always within bounds. -/
theorem log_indices_in_bounds (thr : Nat) (s : PlaceState) (h : Reachable thr s) :
    ∀ u ∈ s.updates,
      u.pixel.x < s.width ∧ u.pixel.y < s.height ∧
      u.pixel.y * s.width + u.pixel.x < s.width * s.height ∧
      u.pixel.y * s.width + u.pixel.x < s.workingSnapshot.pixels.length ∧
      u.pixel.y * s.width + u.pixel.x < s.recentSnapshot.pixels.length := by
  obtain ⟨hW, hR, hB, _⟩ := reachable_storeInv h
  intro u hu
  obtain ⟨hx, hy⟩ := hB u hu
  have hidx : u.pixel.y * s.width + u.pixel.x < s.height * s.width := by
    have h1 : (u.pixel.y + 1) * s.width = u.pixel.y * s.width + s.width := by ring
    have h2 : (u.pixel.y + 1) * s.width ≤ s.height * s.width :=
      Nat.mul_le_mul_right _ hy
    omega
  have hidx' : u.pixel.y * s.width + u.pixel.x < s.width * s.height := by
    rw [Nat.mul_comm s.width s.height]
    exact hidx
  have hwlen : s.workingSnapshot.pixels.length = s.height * s.width := by
    rw [hW.2.2.2, foldl_writeStep_length, freshRows_length]
  have hrlen : s.recentSnapshot.pixels.length = s.height * s.width := by
    rw [hR.2.2.2, foldl_writeStep_length, freshRows_length]
  exact ⟨hx, hy, hidx', hwlen ▸ hidx, hrlen ▸ hidx⟩

/-- Witness for `log_indices_in_bounds`: the store after one accepted write
by writer 7, at its single logged update. -/
theorem log_indices_in_bounds_witness :
    (⟨0, 1000000000, ⟨1, 1, 2, 7⟩⟩ : Update).pixel.x < c9S.width ∧
    (⟨0, 1000000000, ⟨1, 1, 2, 7⟩⟩ : Update).pixel.y < c9S.height ∧
    (⟨0, 1000000000, ⟨1, 1, 2, 7⟩⟩ : Update).pixel.y * c9S.width
        + (⟨0, 1000000000, ⟨1, 1, 2, 7⟩⟩ : Update).pixel.x < c9S.width * c9S.height ∧
    (⟨0, 1000000000, ⟨1, 1, 2, 7⟩⟩ : Update).pixel.y * c9S.width
        + (⟨0, 1000000000, ⟨1, 1, 2, 7⟩⟩ : Update).pixel.x
        < c9S.workingSnapshot.pixels.length ∧
    (⟨0, 1000000000, ⟨1, 1, 2, 7⟩⟩ : Update).pixel.y * c9S.width
        + (⟨0, 1000000000, ⟨1, 1, 2, 7⟩⟩ : Update).pixel.x
        < c9S.recentSnapshot.pixels.length :=
  log_indices_in_bounds 100 c9S
    (Reachable.write PlaceState.init ⟨1, 1, 2, 7⟩ 1000000000 Reachable.init)
    ⟨0, 1000000000, ⟨1, 1, 2, 7⟩⟩ (by decide)

/-- C1: in every reachable store state — i.e. after any sequence of accepted
writes and reads, and for every value of the republish threshold — the
snapshot returned by `getCurrentState` has `recordNumber` equal to the log
length at that point, is identical to what the naive full-copy plus
full-catch-up reader would return, and its in-range cells hold exactly the
last-write-wins value over the updates with sequence number below the
returned `recordNumber` (the default pixel where no update targets the
cell) — and nothing beyond, since every logged record's sequence number is
below the returned `recordNumber`. -/
theorem getCurrentState_refines_naive (thr : Nat) (s : PlaceState) (h : Reachable thr s) :
    (Place.getCurrentStateT thr s).fst.recordNumber = s.updates.length ∧
    (Place.getCurrentStateT thr s).fst = naiveRead s ∧
    (∀ x y : Nat, x < s.width → y < s.height →
      (Place.getCurrentStateT thr s).fst.pixels[y * s.width + x]? =
        (match lastWrite s.updates x y with
         | some u => some u.pixel
         | none => some ⟨x, y, 0, Pixel.defaultColor⟩)) ∧
    (∀ u ∈ s.updates, u.recordNumber < s.updates.length) := by
  obtain ⟨hW, hR, hB, hN⟩ := reachable_storeInv h
  have hrecOK : SnapOK s.updates s.width s.height
      (if s.recentSnapshot.recordNumber + thr < (s.workingSnapshot.apply s.updates).recordNumber
       then s.workingSnapshot.apply s.updates
       else s.recentSnapshot) := by
    split
    · exact snapOK_after_apply hW
    · exact hR
  have hfst : (Place.getCurrentStateT thr s).fst =
      ⟨s.width, s.height,
        s.updates.foldl (writeStep s.width) (freshRows s.width s.height),
        s.updates.length⟩ := by
    unfold Place.getCurrentStateT
    exact apply_of_snapOK hrecOK
  refine ⟨?_, ?_, ?_, ?_⟩
  · rw [hfst]
  · rw [hfst, naiveRead_eq]
  · intro x y hx hy
    rw [hfst]
    have hidx : y * s.width + x < (freshRows s.width s.height).length := by
      rw [freshRows_length]
      have h1 : (y + 1) * s.width = y * s.width + s.width := by ring
      have h2 : (y + 1) * s.width ≤ s.height * s.width := Nat.mul_le_mul_right _ hy
      omega
    have hb' : ∀ u ∈ s.updates, u.pixel.x < s.width := fun u hu => (hB u hu).1
    have hchar := foldl_writeStep_getElem? hx s.updates (freshRows s.width s.height) hb' hidx
    dsimp only at hchar ⊢
    rw [hchar]
    cases hl : lastWrite s.updates x y with
    | none =>
      simp only
      exact freshRows_getElem? s.width s.height y x hx hy
    | some u =>
      simp only
  · intro u hu
    obtain ⟨i, hget⟩ := List.mem_iff_getElem?.mp hu
    have hi := (List.getElem?_eq_some.mp hget).1
    rw [wn_get hN hget]
    exact hi

/-- Witness for `getCurrentState_refines_naive`: the freshly constructed
store at the source's threshold `100`. -/
theorem getCurrentState_refines_naive_witness :
    (Place.getCurrentStateT 100 PlaceState.init).fst.recordNumber
        = PlaceState.init.updates.length ∧
    (Place.getCurrentStateT 100 PlaceState.init).fst = naiveRead PlaceState.init ∧
    (∀ x y : Nat, x < PlaceState.init.width → y < PlaceState.init.height →
      (Place.getCurrentStateT 100 PlaceState.init).fst.pixels[y * PlaceState.init.width + x]? =
        (match lastWrite PlaceState.init.updates x y with
         | some u => some u.pixel
         | none => some ⟨x, y, 0, Pixel.defaultColor⟩)) ∧
    (∀ u ∈ PlaceState.init.updates, u.recordNumber < PlaceState.init.updates.length) :=
  getCurrentState_refines_naive 100 PlaceState.init Reachable.init
